import Mathlib

/-!
Verification of the USD (Universal Scene Description) lexer of this
repository, `src/pygments/lexers/usd.py`.

The rule table `UsdLexer.tokens` is translated rule by rule from the
source.  The matching engine (class `RegexLexer` in `pygments/lexer.py`),
the helpers `bygroups` and `words`, and the vocabulary tables
(`pygments/lexers/_usd_builtins.py`) are code of the repository that is
not among the sources; they are modelled from the spec (see the doc
comments marked accordingly).  Python regular expressions are embedded
as executable matching functions over `List Char`; the class `\w` is
modelled as ASCII alphanumeric or underscore.
-/

namespace UsdLexer

/-- Token categories used by the rule table (attributes of
`pygments.token` named in the source). -/
inductive Tok where
  | KeywordToken
  | KeywordTokens
  | KeywordType
  | NameAttribute
  | NameBuiltins
  | NameKeywordTokens
  | NameNamespace
  | Operator
  | Punctuation
  | CommentSingle
  | CommentHashbang
  | Str
  | StringInterpol
  | StringDoc
  | Number
  | Whitespace
  | Text
  | Generic
  | Error
deriving DecidableEq, Repr

/-- ASCII model of the Python regex class `\w` (also `[\w_]`). -/
def isWordChar (c : Char) : Bool := c.isAlphanum || c == '_'

/-- Model of the Python regex class `\s`. -/
def isSpaceCh (c : Char) : Bool :=
  c == ' ' || c == '\t' || c == '\n' || c == '\r' || c == '\x0b' || c == '\x0c'

/-- The class `[ \t]` used by `_WHITESPACE` in the source. -/
def isBlankCh (c : Char) : Bool := c == ' ' || c == '\t'

/-- The class `[\w:]`. -/
def isWordColon (c : Char) : Bool := isWordChar c || c == ':'

/-- The class `[\w_:\.]` of the generic fallback rule. -/
def isGenChar (c : Char) : Bool := isWordChar c || c == ':' || c == '.'

/-- The class `[\w/]` of the namespace rule. -/
def isWordSlash (c : Char) : Bool := isWordChar c || c == '/'

/-- The class `[.\\n]` of the documentation string rule: a literal dot,
a backslash or the letter n. -/
def isDocClass (c : Char) : Bool := c == '.' || c == '\\' || c == 'n'

/-- Negation of the newline character; the regex `.` matches exactly
the characters satisfying this (no DOTALL flag is set). -/
def notLF (c : Char) : Bool := c != '\n'

/-- The punctuation class of the source rule (open and close
parenthesis, square bracket, curly brace). -/
def isPunctChar (c : Char) : Bool :=
  c == '(' || c == ')' || c == '[' || c == ']' || c == '\x7b' || c == '\x7d'

/-- A single quote character (apostrophe). -/
def SQ : Char := Char.ofNat 39

/-- An emitted sub-span: its category and its text. -/
abbrev Span := Tok × List Char

/-- The concatenated text of a list of sub-spans. -/
def flat (spans : List Span) : List Char := (spans.map fun q => q.2).flatten

/-- A rule matcher: anchored at the head of the remaining input, it
either fails or returns the emitted sub-spans together with the
remaining input after the match. -/
abbrev RuleFn := List Char → Option (List Span × List Char)

/-- Literal matching: `lit w s` succeeds exactly when `w` is an initial
segment of `s`, returning the remainder. -/
def lit : List Char → List Char → Option (List Char)
  | [], s => some s
  | _ :: _, [] => none
  | c :: w, d :: s => if c == d then lit w s else none

/-- Sequencing of two matchers, concatenating their sub-spans. -/
def pseq (a b : RuleFn) : RuleFn := fun s =>
  match a s with
  | none => none
  | some (x, r) =>
    match b r with
    | none => none
    | some (y, r2) => some (x ++ y, r2)

/-- Ordered choice: the second matcher is tried only when the first
fails (the backtracking of an optional regex group). -/
def pOr (a b : RuleFn) : RuleFn := fun s =>
  match a s with
  | some x => some x
  | none => b s

/-- A literal capture group emitting one sub-span. -/
def pLit (w : List Char) (cat : Tok) : RuleFn := fun s =>
  (lit w s).map fun r => ([(cat, w)], r)

/-- A greedy one-or-more character-class group, such as `(\s+)`. -/
def pTak1 (p : Char → Bool) (cat : Tok) : RuleFn := fun s =>
  match s.takeWhile p with
  | [] => none
  | c :: w => some ([(cat, c :: w)], s.dropWhile p)

/-- A greedy zero-or-more character-class group, such as `(\s*)`; an
empty group yields no sub-span (the engine drops empty captures). -/
def pTakOpt (p : Char → Bool) (cat : Tok) : RuleFn := fun s =>
  match s.takeWhile p with
  | [] => some ([], s)
  | c :: w => some ([(cat, c :: w)], s.dropWhile p)

/-- The group `_TYPE = (\w+(?:\[\])?)`: a word, optionally followed by
the two-character array marker, captured as one `Keyword.Type` span. -/
def pType : RuleFn := fun s =>
  match s.takeWhile isWordChar with
  | [] => none
  | c :: w =>
    match s.dropWhile isWordChar with
    | '[' :: ']' :: r => some ([(Tok.KeywordType, (c :: w) ++ ['[', ']'])], r)
    | r => some ([(Tok.KeywordType, c :: w)], r)

/-- The repetition `(?:\:[\w_]+)*` inside `_BASE_ATTRIBUTE`: greedily
consume colon-separated word segments.  The fuel argument bounds the
recursion; callers pass the length of the input, which suffices since
every iteration consumes at least two characters. -/
def attrSegsF : Nat → List Char → List Char × List Char
  | 0, s => ([], s)
  | n + 1, s =>
    match s with
    | a :: t =>
      if a = ':' then
        match t.takeWhile isWordChar with
        | [] => ([], a :: t)
        | c :: w =>
          let q := attrSegsF n (t.dropWhile isWordChar)
          (a :: ((c :: w) ++ q.1), q.2)
      else ([], a :: t)
    | [] => ([], s)

/-- The first capture group of `_BASE_ATTRIBUTE = ([\w_]+(?:\:[\w_]+)*)`,
captured as one `Name.Attribute` span. -/
def pAttrBase : RuleFn := fun s =>
  match s.takeWhile isWordChar with
  | [] => none
  | c :: w =>
    let q := attrSegsF s.length (s.dropWhile isWordChar)
    some ([(Tok.NameAttribute, (c :: w) ++ q.1)], q.2)

/-- The common composite-rule ending `(\s*)(=)` with categories
`Whitespace` and `Operator`. -/
def pEnd : RuleFn := pseq (pTakOpt isSpaceCh Tok.Whitespace) (pLit ['='] Tok.Operator)

/-- The optional suffix `(?:(\.)(timeSamples))?` of `_BASE_ATTRIBUTE`
followed by the ending: the dot is captured as `Generic` and the word
as `Name.Keyword.Tokens`; when the suffix cannot be completed the
ending alone is matched (regex backtracking over the optional group). -/
def pTail : RuleFn :=
  pOr
    (pseq (pseq (pLit ['.'] Tok.Generic) (pLit ( "timeSamples".data) Tok.NameKeywordTokens)) pEnd)
    pEnd

/-- Composite rule
`(custom)([ \t]+)(uniform)(\s+)TYPE(\s+)ATTR(\s*)(=)` with categories
`Keyword.Token, Whitespace, Keyword.Token, Whitespace, Keyword.Type,
Whitespace, Name.Attribute, Generic, Name.Keyword.Tokens, Whitespace,
Operator` (source lines 38-55). -/
def matchCustomUniform : RuleFn :=
  pseq (pLit ( "custom".data) Tok.KeywordToken)
    (pseq (pTak1 isBlankCh Tok.Whitespace)
      (pseq (pLit ( "uniform".data) Tok.KeywordToken)
        (pseq (pTak1 isSpaceCh Tok.Whitespace)
          (pseq pType (pseq (pTak1 isSpaceCh Tok.Whitespace) (pseq pAttrBase pTail))))))

/-- Composite rule `(custom)([ \t]+)TYPE(\s+)ATTR(\s*)(=)` with
categories `Keyword.Token, Whitespace, Keyword.Type, Whitespace,
Name.Attribute, Generic, Name.Keyword.Tokens, Whitespace, Operator`
(source lines 56-71). -/
def matchCustom : RuleFn :=
  pseq (pLit ( "custom".data) Tok.KeywordToken)
    (pseq (pTak1 isBlankCh Tok.Whitespace)
      (pseq pType (pseq (pTak1 isSpaceCh Tok.Whitespace) (pseq pAttrBase pTail))))

/-- Composite rule `(uniform)([ \t]+)TYPE(\s+)ATTR(\s*)(=)` (source
lines 72-87), same categories as the custom rule. -/
def matchUniform : RuleFn :=
  pseq (pLit ( "uniform".data) Tok.KeywordToken)
    (pseq (pTak1 isBlankCh Tok.Whitespace)
      (pseq pType (pseq (pTak1 isSpaceCh Tok.Whitespace) (pseq pAttrBase pTail))))

/-- Composite rule `TYPE([ \t]+)ATTR(\s*)(=)` (source lines 89-101)
with categories `Keyword.Type, Whitespace, Name.Attribute, Generic,
Name.Keyword.Tokens, Whitespace, Operator`. -/
def matchBareType : RuleFn :=
  pseq pType (pseq (pTak1 isBlankCh Tok.Whitespace) (pseq pAttrBase pTail))

/-- Modelled from the spec: `KEYWORDS` is defined in
`pygments/lexers/_usd_builtins.py`, which is not among the sources.
The spec describes it as the word list of bare language keywords
(case-sensitive whole words); this stand-in contains the words the
spec names, notably `custom`, `uniform` and `timeSamples`. -/
def KEYWORDS : List (List Char) :=
  [ "class".data, "clips".data, "custom".data, "customData".data, "def".data,
    "dictionary".data, "inherits".data, "over".data, "payload".data,
    "references".data, "rel".data, "subLayers".data, "timeSamples".data,
    "uniform".data, "variantSet".data, "variantSets".data, "variants".data]

/-- Modelled from the spec: `SPECIAL_NAMES` from
`pygments/lexers/_usd_builtins.py` (not among the sources), the word
list of special or builtin names. -/
def SPECIAL_NAMES : List (List Char) :=
  [ "active".data, "apiSchemas".data, "defaultPrim".data, "elementSize".data,
    "hidden".data, "instanceable".data, "interpolation".data, "kind".data,
    "upAxis".data]

/-- Modelled from the spec: `COMMON_ATTRIBUTES` from
`pygments/lexers/_usd_builtins.py` (not among the sources), the word
list of common well-known attribute names. -/
def COMMON_ATTRIBUTES : List (List Char) :=
  [ "displayColor".data, "displayOpacity".data, "doubleSided".data,
    "extent".data, "points".data, "purpose".data, "visibility".data,
    "xformOpOrder".data]

/-- Modelled from the spec: `OPERATORS` from
`pygments/lexers/_usd_builtins.py` (not among the sources), the word
list of word operators. -/
def OPERATORS : List (List Char) :=
  [ "add".data, "append".data, "delete".data, "prepend".data, "reorder".data]

/-- Modelled from the spec: `TYPES` from
`pygments/lexers/_usd_builtins.py` (not among the sources), the word
list of type names. -/
def TYPES : List (List Char) :=
  [ "asset".data, "bool".data, "color3f".data, "double".data, "double3".data,
    "float".data, "float3".data, "int".data, "matrix4d".data, "normal3f".data,
    "point3f".data, "quatf".data, "string".data, "token".data, "vector3f".data]

/-- Whether the option holds a word character; `none` stands for the
start of the buffer, which behaves like a non-word character for `\b`. -/
def isWordOpt : Option Char → Bool
  | none => false
  | some c => isWordChar c

/-- The word boundary `\b` after a word character: the next character
is absent or not a word character. -/
def boundaryOk : List Char → Bool
  | [] => true
  | c :: _ => !isWordChar c

/-- Modelled from the spec: the helper `words(list, prefix=r"\b",
suffix=r"\b")` of `pygments/lexer.py` (not among the sources) builds a
whole-word alternation.  A word of the list matches when it is an
initial segment of the input and lies between word boundaries; since
all listed words consist of word characters, at most one word of a
list can match at a given position, so alternation order is
irrelevant. -/
def wordsMatch (ws : List (List Char)) (cat : Tok) (prev : Option Char) : RuleFn := fun s =>
  ws.findSome? fun w =>
    match lit w s with
    | some r => if boundaryOk r && !isWordOpt prev then some ([(cat, w)], r) else none
    | none => none

/-- Rule `\b\w+:[\w:]+\b` with category `Name.Attribute` (source line
106).  The greedy run of `[\w:]` backtracks over its trailing colons
until the final `\b` holds, so the match is the maximal word-colon run
with trailing colons removed, provided it still contains a colon. -/
def matchNsAttr (prev : Option Char) : RuleFn := fun s =>
  match s with
  | c :: _ =>
    if isWordChar c && !isWordOpt prev then
      let run := s.takeWhile isWordColon
      let m := (run.reverse.dropWhile fun d => d == ':').reverse
      if m.contains ':' then
        some ([(Tok.NameAttribute, m)],
          ((run.reverse.takeWhile fun d => d == ':').reverse) ++ s.dropWhile isWordColon)
      else none
    else none
  | [] => none

/-- Rules `type\[\]` for each listed type, with category `Keyword.Type`
(source line 109): a literal with no word boundaries. -/
def typesArrayMatch : RuleFn := fun s =>
  TYPES.findSome? fun t =>
    match lit (t ++ ['[', ']']) s with
    | some r => some ([(Tok.KeywordType, t ++ ['[', ']'])], r)
    | none => none

/-- A single-character literal rule such as `,`, `;` or `=`. -/
def pChar (c : Char) (cat : Tok) : RuleFn := fun s =>
  match s with
  | d :: r => if d == c then some ([(cat, [d])], r) else none
  | [] => none

/-- A single-character class rule such as the punctuation rule. -/
def pClass (p : Char → Bool) (cat : Tok) : RuleFn := fun s =>
  match s with
  | d :: r => if p d then some ([(cat, [d])], r) else none
  | [] => none

/-- Rule `#.*?$` with category `Comment.Single` (source line 112): from
a hash to the end of the line (the lazy `.*?` with the multiline `$`
stops before the first newline). -/
def matchComment : RuleFn := fun s =>
  match s with
  | '#' :: t =>
    some ([(Tok.CommentSingle, '#' :: t.takeWhile notLF)], t.dropWhile notLF)
  | _ => none

/-- The body of the number rule `[-]?([0-9]*[.])?[0-9]+` after the
optional sign: either digits, a dot and at least one digit, or at
least one digit (the optional group backtracks away when no digit
follows the dot). -/
def numBody (s : List Char) : Option (List Char × List Char) :=
  let ds := s.takeWhile Char.isDigit
  match s.dropWhile Char.isDigit with
  | '.' :: r2 =>
    match r2.takeWhile Char.isDigit with
    | [] =>
      match ds with
      | [] => none
      | _ => some (ds, s.dropWhile Char.isDigit)
    | c :: w => some (ds ++ '.' :: c :: w, r2.dropWhile Char.isDigit)
  | _ =>
    match ds with
    | [] => none
    | _ => some (ds, s.dropWhile Char.isDigit)

/-- Rule `[-]?([0-9]*[.])?[0-9]+` with category `Number` (source line
116). -/
def matchNumber : RuleFn := fun s =>
  match s with
  | '-' :: t => (numBody t).map fun q => ([(Tok.Number, '-' :: q.1)], q.2)
  | _ => (numBody s).map fun q => ([(Tok.Number, q.1)], q.2)

/-- The lazy scan `(?:.|\n)*?` up to the first closing triple quote,
returning the consumed characters including the closing quotes.  The
fuel argument bounds the recursion; callers pass the input length. -/
def tripleTailF (q : Char) : Nat → List Char → Option (List Char × List Char)
  | 0, _ => none
  | _ + 1, [] => none
  | n + 1, a :: t =>
    match t with
    | b :: c :: u =>
      if a == q && b == q && c == q then some ([a, b, c], u)
      else (tripleTailF q n t).map fun p => (a :: p.1, p.2)
    | _ => none

/-- Rules `'''(?:.|\n)*?'''` and `"""(?:.|\n)*?"""` with category
`String` (source lines 117-118): an opening triple quote, then lazily
any characters up to the first closing triple quote. -/
def matchTriple (q : Char) : RuleFn := fun s =>
  match s with
  | a :: t =>
    if a == q then
      match t with
      | b :: c :: u =>
        if b == q && c == q then
          (tripleTailF q u.length u).map fun p => ([(Tok.Str, [a, b, c] ++ p.1)], p.2)
        else none
      | _ => none
    else none
  | [] => none

/-- The greedy `.*` followed by a literal character `q`: consume up to
the last occurrence of `q` in the list (used on a single line). -/
def upToLast (q : Char) (l : List Char) : Option (List Char × List Char) :=
  match (l.reverse.dropWhile fun c => c != q) with
  | [] => none
  | c :: w => some ((c :: w).reverse, (l.reverse.takeWhile fun c => c != q).reverse)

/-- Rules `'.*'`, `".*"` (source lines 119-120, category `String`) and
`@.*@` (source line 122, category `String.Interpol`): an opening
character, then greedily to the last occurrence of the closing
character on the same line (`.` does not match a newline). -/
def matchLineString (q : Char) (cat : Tok) : RuleFn := fun s =>
  match s with
  | d :: t =>
    if d == q then
      match upToLast q (t.takeWhile notLF) with
      | some p => some ([(cat, q :: p.1)], p.2 ++ t.dropWhile notLF)
      | none => none
    else none
  | [] => none

/-- The repetition `(\.\./)*` of the namespace rule, consumed greedily.
The fuel argument bounds the recursion; callers pass the input
length. -/
def starDotSlashF : Nat → List Char → List Char × List Char
  | 0, s => ([], s)
  | n + 1, s =>
    match s with
    | '.' :: '.' :: '/' :: t =>
      let q := starDotSlashF n t
      ('.' :: '.' :: '/' :: q.1, q.2)
    | _ => ([], s)

/-- Rule `<(\.\./)*([\w/]+|[\w/]+\.\w+[\w:]*)>` with category
`Name.Namespace` (source line 121): an angle-bracketed path of
parent-directory markers and a slash-separated identifier, optionally
with a dotted member and colon segments. -/
def matchNamespace : RuleFn := fun s =>
  match s with
  | '<' :: t =>
    let q0 := starDotSlashF t.length t
    match q0.2.takeWhile isWordSlash with
    | [] => none
    | c :: w =>
      match q0.2.dropWhile isWordSlash with
      | '>' :: r =>
        some ([(Tok.NameNamespace, '<' :: (q0.1 ++ (c :: w) ++ ['>']))], r)
      | '.' :: t3 =>
        match t3.takeWhile isWordChar with
        | [] => none
        | c2 :: w2 =>
          let t4 := t3.dropWhile isWordChar
          match t4.dropWhile isWordColon with
          | '>' :: r =>
            some ([(Tok.NameNamespace,
              '<' :: (q0.1 ++ (c :: w) ++ '.' :: ((c2 :: w2) ++ t4.takeWhile isWordColon ++ ['>'])))], r)
          | _ => none
      | _ => none
  | _ => none

/-- The part `"[.\\n]*".*\)` of the documentation string rule applied
after the outer greedy `.*`: a quote, a run of the class, a quote,
then greedily up to the last closing parenthesis of the line. -/
def pdTail (b : List Char) : Option (List Char × List Char) :=
  match b with
  | '"' :: b1 =>
    match b1.dropWhile isDocClass with
    | '"' :: b3 =>
      (upToLast ')' b3).map fun p => ('"' :: (b1.takeWhile isDocClass ++ '"' :: p.1), p.2)
    | _ => none
  | _ => none

/-- The greedy outer `.*` of the documentation string rule: try the
continuation at every split of the line, longest first. -/
def pdScan (line : List Char) : Option (List Char × List Char) :=
  (List.range (line.length + 1)).reverse.findSome? fun i =>
    (pdTail (line.drop i)).map fun p => (line.take i ++ p.1, p.2)

/-- Rule `\(.*"[.\\n]*".*\)` with category `String.Doc` (source line
123): a parenthesized fragment of one line containing an embedded
quoted run of the class `[.\\n]`. -/
def matchParenDoc : RuleFn := fun s =>
  match s with
  | '(' :: t =>
    match pdScan (t.takeWhile notLF) with
    | some p => some ([(Tok.StringDoc, '(' :: p.1)], p.2 ++ t.dropWhile notLF)
    | none => none
  | _ => none

/-- Rule `\A#usda .+$` with category `Comment.Hashbang` (source line
124): only at the absolute start of the buffer, the literal header
followed by at least one character up to the end of the line. -/
def matchHashbang (pos : Nat) : RuleFn := fun s =>
  match lit ( "#usda ".data) s with
  | some t =>
    if pos = 0 then
      match t.takeWhile notLF with
      | [] => none
      | c :: w => some ([(Tok.CommentHashbang, "#usda ".data ++ c :: w)], t.dropWhile notLF)
    else none
  | none => none

/-- First-match choice between two rule attempts. -/
def rElse : Option (List Span × List Char) → Option (List Span × List Char) → Option (List Span × List Char)
  | some x, _ => some x
  | none, b => b

/-- The full rule table of `UsdLexer.tokens` in source order, tried at
one position: the four composite rules, the five word lists, the
namespaced attribute rule, the array types, punctuation, comment,
separators, the bare equals, numbers, strings, namespaces,
interpolated and documentation strings, the hashbang, whitespace
(category `Text`, source line 125) and the generic word fallback
`[\w_:\.]+` (source line 126). -/
def tryRules (pos : Nat) (prev : Option Char) (s : List Char) : Option (List Span × List Char) :=
  rElse (matchCustomUniform s) <|
  rElse (matchCustom s) <|
  rElse (matchUniform s) <|
  rElse (matchBareType s) <|
  rElse (wordsMatch KEYWORDS Tok.KeywordTokens prev s) <|
  rElse (wordsMatch SPECIAL_NAMES Tok.NameBuiltins prev s) <|
  rElse (wordsMatch COMMON_ATTRIBUTES Tok.NameAttribute prev s) <|
  rElse (matchNsAttr prev s) <|
  rElse (wordsMatch OPERATORS Tok.Operator prev s) <|
  rElse (typesArrayMatch s) <|
  rElse (wordsMatch TYPES Tok.KeywordType prev s) <|
  rElse (pClass isPunctChar Tok.Punctuation s) <|
  rElse (matchComment s) <|
  rElse (pChar ',' Tok.Generic s) <|
  rElse (pChar ';' Tok.Generic s) <|
  rElse (pChar '=' Tok.Operator s) <|
  rElse (matchNumber s) <|
  rElse (matchTriple SQ s) <|
  rElse (matchTriple '"' s) <|
  rElse (matchLineString SQ Tok.Str s) <|
  rElse (matchLineString '"' Tok.Str s) <|
  rElse (matchNamespace s) <|
  rElse (matchLineString '@' Tok.StringInterpol s) <|
  rElse (matchParenDoc s) <|
  rElse (matchHashbang pos s) <|
  rElse (pTak1 isSpaceCh Tok.Text s) <|
  (pTak1 isGenChar Tok.Generic s)

/-- Sub-spans laid out at absolute offsets, in capture order. -/
def withPos : Nat → List Span → List (Nat × Tok × List Char)
  | _, [] => []
  | p, (tk, txt) :: rest => (p, tk, txt) :: withPos (p + txt.length) rest

/-- Modelled from the spec: the matching engine
`RegexLexer.get_tokens_unprocessed` of `pygments/lexer.py` is not among
the sources.  Spec 4.1: maintain a cursor, try the rules in order
anchored at the cursor, emit the capture sub-spans of the first match
and advance past it; when no rule matches, emit the single character at
the cursor (a newline as `Text`, anything else as `Error`) and advance
by one.  The previous character is carried for the word-boundary
assertions.  The fuel argument bounds the recursion; `lex` passes the
input length, which the termination theorem shows is never exhausted
because every match consumes at least one character. -/
def lexAux : Nat → Nat → Option Char → List Char → List (Nat × Tok × List Char)
  | _, _, _, [] => []
  | 0, _, _, _ :: _ => []
  | fuel + 1, pos, prev, c :: t =>
    match tryRules pos prev (c :: t) with
    | some (spans, r) =>
      withPos pos spans ++
        lexAux fuel (pos + (flat spans).length) (flat spans).getLast? r
    | none =>
      (pos, if c = '\n' then Tok.Text else Tok.Error, [c]) ::
        lexAux fuel (pos + 1) (some c) t

/-- Lex a whole buffer: run the engine from offset zero. -/
def lex (s : List Char) : List (Nat × Tok × List Char) :=
  lexAux s.length 0 none s

/-- A matcher attempt is sound for input `s` when, on success, the
concatenated sub-span texts form the consumed initial segment of `s`,
the match is non-empty, and every emitted sub-span is non-empty. -/
def ROk (s : List Char) (o : Option (List Span × List Char)) : Prop :=
  ∀ spans r, o = some (spans, r) →
    s = flat spans ++ r ∧ flat spans ≠ [] ∧ ∀ q ∈ spans, q.2 ≠ ([] : List Char)

/-- Decomposition soundness of a matcher on every input. -/
def PDec (m : RuleFn) : Prop :=
  ∀ s spans r, m s = some (spans, r) →
    s = flat spans ++ r ∧ ∀ q ∈ spans, q.2 ≠ ([] : List Char)

/-- Positivity of a matcher: a successful match consumes at least one
character. -/
def PPos (m : RuleFn) : Prop :=
  ∀ s spans r, m s = some (spans, r) → flat spans ≠ []

theorem flat_append (x y : List Span) : flat (x ++ y) = flat x ++ flat y := by
  simp [flat]

theorem flat_single (cat : Tok) (w : List Char) : flat [(cat, w)] = w := by
  simp [flat]

theorem lit_eq : ∀ (w s r : List Char), lit w s = some r → s = w ++ r := by
  intro w
  induction w with
  | nil => intro s r h; simp [lit] at h; simp [h]
  | cons c w ih =>
    intro s r h
    cases s with
    | nil => simp [lit] at h
    | cons d t =>
      simp only [lit] at h
      by_cases hc : (c == d) = true
      · rw [if_pos hc] at h
        have hcd : c = d := eq_of_beq hc
        subst hcd
        rw [ih t r h, List.cons_append]
      · rw [if_neg hc] at h; simp at h

theorem findSomeEx {α β : Type} {f : α → Option β} :
    ∀ {l : List α} {b : β}, l.findSome? f = some b → ∃ a, a ∈ l ∧ f a = some b := by
  intro l
  induction l with
  | nil => intro b h; simp [List.findSome?] at h
  | cons a l ih =>
    intro b h
    rw [List.findSome?_cons] at h
    cases hf : f a with
    | some v =>
      rw [hf] at h
      simp only at h
      exact ⟨a, List.mem_cons_self a l, by rw [hf, h]⟩
    | none =>
      rw [hf] at h
      simp only at h
      obtain ⟨x, hx, hfx⟩ := ih h
      exact ⟨x, List.mem_cons_of_mem a hx, hfx⟩

theorem rElse_ok {s : List Char} {a b : Option (List Span × List Char)}
    (h1 : ROk s a) (h2 : ROk s b) : ROk s (rElse a b) := by
  intro spans r h
  cases a with
  | some x => exact h1 spans r (by simpa [rElse] using h)
  | none => exact h2 spans r (by simpa [rElse] using h)

theorem rok_of_dec_pos {m : RuleFn} (h1 : PDec m) (h2 : PPos m) (s : List Char) :
    ROk s (m s) := by
  intro spans r h
  exact ⟨(h1 s spans r h).1, h2 s spans r h, (h1 s spans r h).2⟩

theorem pseq_dec {a b : RuleFn} (ha : PDec a) (hb : PDec b) : PDec (pseq a b) := by
  intro s spans r h
  unfold pseq at h
  split at h
  · simp at h
  next x1 r1 h1 =>
    split at h
    · simp at h
    next y1 r2 h2 =>
      simp only [Option.some.injEq, Prod.mk.injEq] at h
      obtain ⟨hs, hr⟩ := h
      obtain ⟨d1, n1⟩ := ha s x1 r1 h1
      obtain ⟨d2, n2⟩ := hb r1 y1 r2 h2
      constructor
      · rw [← hs, flat_append, d1, d2, hr, List.append_assoc]
      · intro q hq
        rw [← hs] at hq
        rcases List.mem_append.mp hq with hq1 | hq2
        · exact n1 q hq1
        · exact n2 q hq2

theorem pseq_pos {a b : RuleFn} (ha : PPos a) : PPos (pseq a b) := by
  intro s spans r h
  unfold pseq at h
  split at h
  · simp at h
  next x1 r1 h1 =>
    split at h
    · simp at h
    next y1 r2 h2 =>
      simp only [Option.some.injEq, Prod.mk.injEq] at h
      obtain ⟨hs, _⟩ := h
      have := ha s x1 r1 h1
      rw [← hs, flat_append]
      simp only [ne_eq, List.append_eq_nil]
      intro hcon
      exact this hcon.1

theorem pOr_dec {a b : RuleFn} (ha : PDec a) (hb : PDec b) : PDec (pOr a b) := by
  intro s spans r h
  unfold pOr at h
  split at h
  next x h1 => exact ha s spans r (by rw [← h, h1])
  next h1 => exact hb s spans r h

theorem pOr_pos {a b : RuleFn} (ha : PPos a) (hb : PPos b) : PPos (pOr a b) := by
  intro s spans r h
  unfold pOr at h
  split at h
  next x h1 => exact ha s spans r (by rw [← h, h1])
  next h1 => exact hb s spans r h

theorem pLit_dec {w : List Char} (hw : w ≠ []) (cat : Tok) : PDec (pLit w cat) := by
  intro s spans r h
  unfold pLit at h
  cases h1 : lit w s with
  | none => rw [h1] at h; simp at h
  | some r0 =>
    rw [h1] at h
    simp only [Option.map_some, Option.map_some', Option.some.injEq, Prod.mk.injEq] at h
    obtain ⟨hs, hr⟩ := h
    refine ⟨?_, ?_⟩
    · rw [← hs, flat_single, ← hr]; exact lit_eq w s r0 h1
    · intro q hq; rw [← hs] at hq; simp at hq; rw [hq]; exact hw

theorem pLit_pos {w : List Char} (hw : w ≠ []) (cat : Tok) : PPos (pLit w cat) := by
  intro s spans r h
  unfold pLit at h
  cases h1 : lit w s with
  | none => rw [h1] at h; simp at h
  | some r0 =>
    rw [h1] at h
    simp only [Option.map_some, Option.map_some', Option.some.injEq, Prod.mk.injEq] at h
    rw [← h.1, flat_single]
    exact hw

theorem pTak1_dec (p : Char → Bool) (cat : Tok) : PDec (pTak1 p cat) := by
  intro s spans r h
  unfold pTak1 at h
  cases h1 : s.takeWhile p with
  | nil => rw [h1] at h; simp at h
  | cons c w =>
    rw [h1] at h
    simp only [Option.some.injEq, Prod.mk.injEq] at h
    obtain ⟨hs, hr⟩ := h
    refine ⟨?_, ?_⟩
    · rw [← hs, flat_single, ← hr, ← h1]
      exact (List.takeWhile_append_dropWhile p s).symm
    · intro q hq; rw [← hs] at hq; simp at hq; rw [hq]; simp

theorem pTak1_pos (p : Char → Bool) (cat : Tok) : PPos (pTak1 p cat) := by
  intro s spans r h
  unfold pTak1 at h
  cases h1 : s.takeWhile p with
  | nil => rw [h1] at h; simp at h
  | cons c w =>
    rw [h1] at h
    simp only [Option.some.injEq, Prod.mk.injEq] at h
    rw [← h.1, flat_single]
    simp

theorem pTakOpt_dec (p : Char → Bool) (cat : Tok) : PDec (pTakOpt p cat) := by
  intro s spans r h
  unfold pTakOpt at h
  cases h1 : s.takeWhile p with
  | nil =>
    rw [h1] at h
    simp only [Option.some.injEq, Prod.mk.injEq] at h
    obtain ⟨hs, hr⟩ := h
    refine ⟨by rw [← hs, ← hr]; simp [flat], ?_⟩
    intro q hq; rw [← hs] at hq; simp at hq
  | cons c w =>
    rw [h1] at h
    simp only [Option.some.injEq, Prod.mk.injEq] at h
    obtain ⟨hs, hr⟩ := h
    refine ⟨?_, ?_⟩
    · rw [← hs, flat_single, ← hr, ← h1]
      exact (List.takeWhile_append_dropWhile p s).symm
    · intro q hq; rw [← hs] at hq; simp at hq; rw [hq]; simp

theorem attrSegsF_decomp : ∀ (n : Nat) (s : List Char),
    (attrSegsF n s).1 ++ (attrSegsF n s).2 = s := by
  intro n
  induction n with
  | zero => intro s; simp [attrSegsF]
  | succ n ih =>
    intro s
    cases s with
    | nil => simp [attrSegsF]
    | cons a t =>
      by_cases ha : a = ':'
      · cases h1 : t.takeWhile isWordChar with
        | nil => simp [attrSegsF, ha, h1]
        | cons c w =>
          have ht : (c :: w) ++ t.dropWhile isWordChar = t := by
            rw [← h1]; exact List.takeWhile_append_dropWhile isWordChar t
          simp only [attrSegsF, ha, if_pos, h1]
          rw [List.cons_append, List.append_assoc, ih, ht]
      · simp [attrSegsF, ha]

theorem pType_dec : PDec pType := by
  intro s spans r h
  unfold pType at h
  split at h
  · simp at h
  next c w h1 =>
    split at h
    next r0 h2 =>
      simp only [Option.some.injEq, Prod.mk.injEq] at h
      obtain ⟨hs, hr⟩ := h
      constructor
      · rw [← hs, flat_single, ← hr]
        have := List.takeWhile_append_dropWhile isWordChar s
        rw [h1, h2] at this
        rw [← this]
        simp
      · intro q hq; rw [← hs] at hq; simp at hq; rw [hq]; simp
    next r0 h2 =>
      simp only [Option.some.injEq, Prod.mk.injEq] at h
      obtain ⟨hs, hr⟩ := h
      constructor
      · rw [← hs, flat_single, ← hr, ← h1]
        exact (List.takeWhile_append_dropWhile isWordChar s).symm
      · intro q hq; rw [← hs] at hq; simp at hq; rw [hq]; simp

theorem pType_pos : PPos pType := by
  intro s spans r h
  unfold pType at h
  split at h
  · simp at h
  next c w h1 =>
    split at h
    all_goals
      simp only [Option.some.injEq, Prod.mk.injEq] at h
      rw [← h.1, flat_single]
      simp

theorem pAttrBase_dec : PDec pAttrBase := by
  intro s spans r h
  unfold pAttrBase at h
  split at h
  · simp at h
  next c w h1 =>
    simp only [Option.some.injEq, Prod.mk.injEq] at h
    obtain ⟨hs, hr⟩ := h
    constructor
    · rw [← hs, flat_single, ← hr]
      have h2 := attrSegsF_decomp s.length (s.dropWhile isWordChar)
      calc s = (c :: w) ++ s.dropWhile isWordChar := by
              rw [← h1]; exact (List.takeWhile_append_dropWhile isWordChar s).symm
        _ = (c :: w) ++ ((attrSegsF s.length (s.dropWhile isWordChar)).1 ++
              (attrSegsF s.length (s.dropWhile isWordChar)).2) := by rw [h2]
        _ = (c :: w) ++ (attrSegsF s.length (s.dropWhile isWordChar)).1 ++
              (attrSegsF s.length (s.dropWhile isWordChar)).2 := by rw [List.append_assoc]
    · intro q hq; rw [← hs] at hq; simp at hq; rw [hq]; simp

theorem pAttrBase_pos : PPos pAttrBase := by
  intro s spans r h
  unfold pAttrBase at h
  split at h
  · simp at h
  next c w h1 =>
    simp only [Option.some.injEq, Prod.mk.injEq] at h
    rw [← h.1, flat_single]
    simp

theorem pEnd_dec : PDec pEnd :=
  pseq_dec (pTakOpt_dec isSpaceCh Tok.Whitespace) (pLit_dec (by simp) Tok.Operator)

theorem pTail_dec : PDec pTail :=
  pOr_dec
    (pseq_dec
      (pseq_dec (pLit_dec (by simp) Tok.Generic) (pLit_dec (by decide) Tok.NameKeywordTokens))
      pEnd_dec)
    pEnd_dec

theorem matchCustomUniform_dec : PDec matchCustomUniform :=
  pseq_dec (pLit_dec (by decide) Tok.KeywordToken)
    (pseq_dec (pTak1_dec isBlankCh Tok.Whitespace)
      (pseq_dec (pLit_dec (by decide) Tok.KeywordToken)
        (pseq_dec (pTak1_dec isSpaceCh Tok.Whitespace)
          (pseq_dec pType_dec
            (pseq_dec (pTak1_dec isSpaceCh Tok.Whitespace)
              (pseq_dec pAttrBase_dec pTail_dec))))))

theorem matchCustomUniform_pos : PPos matchCustomUniform :=
  pseq_pos (pLit_pos (by decide) Tok.KeywordToken)

theorem matchCustom_dec : PDec matchCustom :=
  pseq_dec (pLit_dec (by decide) Tok.KeywordToken)
    (pseq_dec (pTak1_dec isBlankCh Tok.Whitespace)
      (pseq_dec pType_dec
        (pseq_dec (pTak1_dec isSpaceCh Tok.Whitespace)
          (pseq_dec pAttrBase_dec pTail_dec))))

theorem matchCustom_pos : PPos matchCustom :=
  pseq_pos (pLit_pos (by decide) Tok.KeywordToken)

theorem matchUniform_dec : PDec matchUniform :=
  pseq_dec (pLit_dec (by decide) Tok.KeywordToken)
    (pseq_dec (pTak1_dec isBlankCh Tok.Whitespace)
      (pseq_dec pType_dec
        (pseq_dec (pTak1_dec isSpaceCh Tok.Whitespace)
          (pseq_dec pAttrBase_dec pTail_dec))))

theorem matchUniform_pos : PPos matchUniform :=
  pseq_pos (pLit_pos (by decide) Tok.KeywordToken)

theorem matchBareType_dec : PDec matchBareType :=
  pseq_dec pType_dec
    (pseq_dec (pTak1_dec isBlankCh Tok.Whitespace)
      (pseq_dec pAttrBase_dec pTail_dec))

theorem matchBareType_pos : PPos matchBareType :=
  pseq_pos pType_pos

theorem wordsMatch_rok {ws : List (List Char)} (hne : ∀ w ∈ ws, w ≠ ([] : List Char))
    (cat : Tok) (prev : Option Char) (s : List Char) :
    ROk s (wordsMatch ws cat prev s) := by
  intro spans r h
  unfold wordsMatch at h
  obtain ⟨w, hw, hfw⟩ := findSomeEx h
  split at hfw
  next r1 heq =>
    split at hfw
    · simp only [Option.some.injEq, Prod.mk.injEq] at hfw
      obtain ⟨hs, hr⟩ := hfw
      refine ⟨?_, ?_, ?_⟩
      · rw [← hs, flat_single, ← hr]; exact lit_eq w s r1 heq
      · rw [← hs, flat_single]; exact hne w hw
      · intro q hq; rw [← hs] at hq; simp at hq; rw [hq]; exact hne w hw
    · exact Option.noConfusion hfw
  next heq => exact Option.noConfusion hfw

theorem revsplit (p : Char → Bool) (l : List Char) :
    (l.reverse.dropWhile p).reverse ++ (l.reverse.takeWhile p).reverse = l := by
  rw [← List.reverse_append, List.takeWhile_append_dropWhile, List.reverse_reverse]

theorem matchNsAttr_rok (prev : Option Char) (s : List Char) :
    ROk s (matchNsAttr prev s) := by
  intro spans r h
  unfold matchNsAttr at h
  split at h
  next c t =>
    split at h
    · dsimp only at h
      split at h
      next hcon =>
        simp only [Option.some.injEq, Prod.mk.injEq] at h
        obtain ⟨hs, hr⟩ := h
        have hmne : (((c :: t).takeWhile isWordColon).reverse.dropWhile
            (fun d => d == ':')).reverse ≠ ([] : List Char) := by
          intro hnil
          rw [hnil] at hcon
          simp [List.contains] at hcon
        refine ⟨?_, ?_, ?_⟩
        · rw [← hs, flat_single, ← hr, ← List.append_assoc,
            revsplit (fun d => d == ':') ((c :: t).takeWhile isWordColon),
            List.takeWhile_append_dropWhile]
        · rw [← hs, flat_single]
          exact hmne
        · intro q hq
          rw [← hs] at hq
          simp at hq
          rw [hq]
          exact hmne
      · exact Option.noConfusion h
    · exact Option.noConfusion h
  · exact Option.noConfusion h

theorem typesArrayMatch_rok (s : List Char) : ROk s (typesArrayMatch s) := by
  intro spans r h
  unfold typesArrayMatch at h
  obtain ⟨w, hw, hfw⟩ := findSomeEx h
  cases h1 : lit (w ++ ['[', ']']) s with
  | none => rw [h1] at hfw; simp at hfw
  | some r0 =>
    rw [h1] at hfw
    simp only [Option.some.injEq, Prod.mk.injEq] at hfw
    obtain ⟨hs, hr⟩ := hfw
    refine ⟨?_, ?_, ?_⟩
    · rw [← hs, flat_single, ← hr]; exact lit_eq _ s r0 h1
    · rw [← hs, flat_single]; simp
    · intro q hq; rw [← hs] at hq; simp at hq; rw [hq]; simp

theorem pChar_rok (c : Char) (cat : Tok) (s : List Char) : ROk s (pChar c cat s) := by
  intro spans r h
  unfold pChar at h
  split at h
  next d t =>
    split at h
    · simp only [Option.some.injEq, Prod.mk.injEq] at h
      obtain ⟨hs, hr⟩ := h
      exact ⟨by rw [← hs, flat_single, ← hr]; rfl, by rw [← hs, flat_single]; simp,
        by intro q hq; rw [← hs] at hq; simp at hq; rw [hq]; simp⟩
    · simp at h
  · simp at h

theorem pClass_rok (p : Char → Bool) (cat : Tok) (s : List Char) :
    ROk s (pClass p cat s) := by
  intro spans r h
  unfold pClass at h
  split at h
  next d t =>
    split at h
    · simp only [Option.some.injEq, Prod.mk.injEq] at h
      obtain ⟨hs, hr⟩ := h
      exact ⟨by rw [← hs, flat_single, ← hr]; rfl, by rw [← hs, flat_single]; simp,
        by intro q hq; rw [← hs] at hq; simp at hq; rw [hq]; simp⟩
    · simp at h
  · simp at h

theorem matchComment_rok (s : List Char) : ROk s (matchComment s) := by
  intro spans r h
  unfold matchComment at h
  split at h
  next t =>
    simp only [Option.some.injEq, Prod.mk.injEq] at h
    obtain ⟨hs, hr⟩ := h
    refine ⟨?_, ?_, ?_⟩
    · rw [← hs, flat_single, ← hr]
      simp [List.takeWhile_append_dropWhile]
    · rw [← hs, flat_single]; simp
    · intro q hq; rw [← hs] at hq; simp at hq; rw [hq]; simp
  · simp at h

theorem numBody_decomp (s x r : List Char) (h : numBody s = some (x, r)) :
    s = x ++ r ∧ x ≠ [] := by
  unfold numBody at h
  dsimp only at h
  split at h
  next r2 hdrop =>
    split at h
    next htake =>
      split at h
      · exact Option.noConfusion h
      next c cs hds =>
        simp only [Option.some.injEq, Prod.mk.injEq] at h
        obtain ⟨hx, hr⟩ := h
        constructor
        · rw [← hx, ← hr]
          exact (List.takeWhile_append_dropWhile Char.isDigit s).symm
        · rw [← hx]; exact hds
    next c w htake =>
      simp only [Option.some.injEq, Prod.mk.injEq] at h
      obtain ⟨hx, hr⟩ := h
      constructor
      · rw [← hx, ← hr]
        have h2 : (c :: w) ++ r2.dropWhile Char.isDigit = r2 := by
          rw [← htake]; exact List.takeWhile_append_dropWhile Char.isDigit r2
        calc s = s.takeWhile Char.isDigit ++ s.dropWhile Char.isDigit := by
                rw [List.takeWhile_append_dropWhile]
          _ = s.takeWhile Char.isDigit ++ ('.' :: r2) := by rw [hdrop]
          _ = s.takeWhile Char.isDigit ++ ('.' :: ((c :: w) ++ r2.dropWhile Char.isDigit)) := by
                rw [h2]
          _ = s.takeWhile Char.isDigit ++ '.' :: c :: w ++ r2.dropWhile Char.isDigit := by
                simp
      · rw [← hx]; simp
  next hdrop =>
    split at h
    · exact Option.noConfusion h
    next c cs hds =>
      simp only [Option.some.injEq, Prod.mk.injEq] at h
      obtain ⟨hx, hr⟩ := h
      constructor
      · rw [← hx, ← hr]
        exact (List.takeWhile_append_dropWhile Char.isDigit s).symm
      · rw [← hx]; exact hds

theorem matchNumber_rok (s : List Char) : ROk s (matchNumber s) := by
  intro spans r h
  unfold matchNumber at h
  split at h
  · rename_i t
    cases h2 : numBody t with
    | none => rw [h2] at h; exact Option.noConfusion h
    | some p =>
      obtain ⟨p1, p2⟩ := p
      rw [h2] at h
      simp only [Option.map_some, Option.map_some', Option.some.injEq, Prod.mk.injEq] at h
      obtain ⟨hs, hr⟩ := h
      obtain ⟨hd, hne⟩ := numBody_decomp t p1 p2 h2
      refine ⟨?_, ?_, ?_⟩
      · rw [← hs, flat_single, ← hr, hd]; rfl
      · rw [← hs, flat_single]; simp
      · intro q hq; rw [← hs] at hq; simp at hq; rw [hq]; simp
  · cases h2 : numBody s with
    | none => rw [h2] at h; exact Option.noConfusion h
    | some p =>
      obtain ⟨p1, p2⟩ := p
      rw [h2] at h
      simp only [Option.map_some, Option.map_some', Option.some.injEq, Prod.mk.injEq] at h
      obtain ⟨hs, hr⟩ := h
      obtain ⟨hd, hne⟩ := numBody_decomp s p1 p2 h2
      refine ⟨?_, ?_, ?_⟩
      · rw [← hs, flat_single, ← hr]; exact hd
      · rw [← hs, flat_single]; exact hne
      · intro q hq; rw [← hs] at hq; simp at hq; rw [hq]; exact hne

theorem tripleTailF_decomp (q : Char) :
    ∀ (n : Nat) (s x r : List Char), tripleTailF q n s = some (x, r) → s = x ++ r := by
  intro n
  induction n with
  | zero => intro s x r h; simp [tripleTailF] at h
  | succ n ih =>
    intro s x r h
    cases s with
    | nil => simp [tripleTailF] at h
    | cons a t =>
      unfold tripleTailF at h
      split at h
      next b c u =>
        split at h
        · simp only [Option.some.injEq, Prod.mk.injEq] at h
          obtain ⟨hx, hr⟩ := h
          rw [← hx, ← hr]
          rfl
        · cases h2 : tripleTailF q n (b :: c :: u) with
          | none => rw [h2] at h; exact Option.noConfusion h
          | some p =>
            obtain ⟨p1, p2⟩ := p
            rw [h2] at h
            simp only [Option.map_some, Option.map_some', Option.some.injEq,
              Prod.mk.injEq] at h
            obtain ⟨hx, hr⟩ := h
            have h3 := ih (b :: c :: u) p1 p2 h2
            rw [← hx, ← hr, List.cons_append, ← h3]
      next => exact Option.noConfusion h

theorem matchTriple_rok (q : Char) (s : List Char) : ROk s (matchTriple q s) := by
  intro spans r h
  unfold matchTriple at h
  split at h
  next a t =>
    split at h
    · split at h
      next b c u =>
        split at h
        · cases h2 : tripleTailF q u.length u with
          | none => rw [h2] at h; exact Option.noConfusion h
          | some p =>
            obtain ⟨p1, p2⟩ := p
            rw [h2] at h
            simp only [Option.map_some, Option.map_some', Option.some.injEq,
              Prod.mk.injEq] at h
            obtain ⟨hs, hr⟩ := h
            have h3 := tripleTailF_decomp q u.length u p1 p2 h2
            refine ⟨?_, ?_, ?_⟩
            · rw [← hs, flat_single, ← hr, h3]; rfl
            · rw [← hs, flat_single]; simp
            · intro q2 hq; rw [← hs] at hq; simp at hq; rw [hq]; simp
        · exact Option.noConfusion h
      next => exact Option.noConfusion h
    · exact Option.noConfusion h
  next => exact Option.noConfusion h

theorem upToLast_decomp (q : Char) (l x r : List Char) (h : upToLast q l = some (x, r)) :
    l = x ++ r ∧ x ≠ [] := by
  unfold upToLast at h
  split at h
  · exact Option.noConfusion h
  next c w heq =>
    simp only [Option.some.injEq, Prod.mk.injEq] at h
    obtain ⟨hx, hr⟩ := h
    constructor
    · rw [← hx, ← hr, ← heq]
      exact (revsplit (fun c => c != q) l).symm
    · rw [← hx]; simp

theorem matchLineString_rok (q : Char) (cat : Tok) (s : List Char) :
    ROk s (matchLineString q cat s) := by
  intro spans r h
  unfold matchLineString at h
  split at h
  next d t =>
    split at h
    · split at h
      next p hup =>
        obtain ⟨p1, p2⟩ := p
        simp only [Option.some.injEq, Prod.mk.injEq] at h
        obtain ⟨hs, hr⟩ := h
        obtain ⟨hd, hne⟩ := upToLast_decomp q (t.takeWhile notLF) p1 p2 hup
        refine ⟨?_, ?_, ?_⟩
        · rw [← hs, flat_single, ← hr]
          have : t = p1 ++ p2 ++ t.dropWhile notLF := by
            rw [← hd, List.takeWhile_append_dropWhile]
          calc d :: t = d :: (p1 ++ p2 ++ t.dropWhile notLF) := by rw [← this]
            _ = (q :: p1) ++ (p2 ++ t.dropWhile notLF) := by
                rename_i hdq _
                rw [eq_of_beq hdq]; simp
        · rw [← hs, flat_single]; simp
        · intro q2 hq; rw [← hs] at hq; simp at hq; rw [hq]; simp
      · exact Option.noConfusion h
    · exact Option.noConfusion h
  next => exact Option.noConfusion h

theorem starDotSlashF_decomp :
    ∀ (n : Nat) (s : List Char) p, starDotSlashF n s = p → p.1 ++ p.2 = s := by
  intro n
  induction n with
  | zero => intro s p h; rw [← h]; simp [starDotSlashF]
  | succ n ih =>
    intro s p h
    unfold starDotSlashF at h
    split at h
    next t =>
      have h2 := ih t (starDotSlashF n t) rfl
      rw [← h]
      dsimp only
      rw [List.cons_append, List.cons_append, List.cons_append, h2]
    next => rw [← h]; simp

theorem matchNamespace_rok (s : List Char) : ROk s (matchNamespace s) := by
  intro spans r h
  unfold matchNamespace at h
  split at h
  next t =>
    dsimp only at h
    split at h
    · exact Option.noConfusion h
    next c w htake =>
      have hq0 : (starDotSlashF t.length t).1 ++ (starDotSlashF t.length t).2 = t :=
        starDotSlashF_decomp t.length t _ rfl
      split at h
      next r0 hdrop =>
        simp only [Option.some.injEq, Prod.mk.injEq] at h
        obtain ⟨hs, hr⟩ := h
        have h2 : (c :: w) ++ ('>' :: r0) = (starDotSlashF t.length t).2 := by
          rw [← htake, ← hdrop]
          exact List.takeWhile_append_dropWhile isWordSlash _
        refine ⟨?_, ?_, ?_⟩
        · rw [← hs, flat_single, ← hr]
          calc '<' :: t
              = '<' :: ((starDotSlashF t.length t).1 ++ (starDotSlashF t.length t).2) := by
                rw [hq0]
            _ = '<' :: ((starDotSlashF t.length t).1 ++ ((c :: w) ++ ('>' :: r0))) := by
                rw [h2]
            _ = ('<' :: ((starDotSlashF t.length t).1 ++ (c :: w) ++ ['>'])) ++ r0 := by
                simp
        · rw [← hs, flat_single]; simp
        · intro q2 hq; rw [← hs] at hq; simp at hq; rw [hq]; simp
      next t3 hdrop =>
        split at h
        · exact Option.noConfusion h
        next c2 w2 htake2 =>
          split at h
          next r0 hdrop2 =>
            simp only [Option.some.injEq, Prod.mk.injEq] at h
            obtain ⟨hs, hr⟩ := h
            have h2 : (c :: w) ++ ('.' :: t3) = (starDotSlashF t.length t).2 := by
              rw [← htake, ← hdrop]
              exact List.takeWhile_append_dropWhile isWordSlash _
            have h3 : (c2 :: w2) ++ t3.dropWhile isWordChar = t3 := by
              rw [← htake2]; exact List.takeWhile_append_dropWhile isWordChar t3
            have h4 : (t3.dropWhile isWordChar).takeWhile isWordColon ++ ('>' :: r0) =
                t3.dropWhile isWordChar := by
              rw [← hdrop2]
              exact List.takeWhile_append_dropWhile isWordColon _
            refine ⟨?_, ?_, ?_⟩
            · rw [← hs, flat_single, ← hr]
              calc '<' :: t
                  = '<' :: ((starDotSlashF t.length t).1 ++ (starDotSlashF t.length t).2) := by
                    rw [hq0]
                _ = '<' :: ((starDotSlashF t.length t).1 ++ ((c :: w) ++ ('.' :: t3))) := by
                    rw [h2]
                _ = '<' :: ((starDotSlashF t.length t).1 ++ ((c :: w) ++
                      ('.' :: ((c2 :: w2) ++ t3.dropWhile isWordChar)))) := by
                    rw [h3]
                _ = '<' :: ((starDotSlashF t.length t).1 ++ ((c :: w) ++
                      ('.' :: ((c2 :: w2) ++ ((t3.dropWhile isWordChar).takeWhile isWordColon ++
                        ('>' :: r0)))))) := by
                    rw [h4]
                _ = ('<' :: ((starDotSlashF t.length t).1 ++ (c :: w) ++
                      '.' :: ((c2 :: w2) ++ (t3.dropWhile isWordChar).takeWhile isWordColon ++
                        ['>']))) ++ r0 := by
                    simp
            · rw [← hs, flat_single]; simp
            · intro q2 hq; rw [← hs] at hq; simp at hq; rw [hq]; simp
          next => exact Option.noConfusion h
      next => exact Option.noConfusion h
  next => exact Option.noConfusion h

theorem pdTail_decomp (b x r : List Char) (h : pdTail b = some (x, r)) :
    b = x ++ r ∧ x ≠ [] := by
  unfold pdTail at h
  split at h
  next b1 =>
    split at h
    next b3 hdrop =>
      cases h2 : upToLast ')' b3 with
      | none => rw [h2] at h; exact Option.noConfusion h
      | some p =>
        obtain ⟨p1, p2⟩ := p
        rw [h2] at h
        simp only [Option.map_some, Option.map_some', Option.some.injEq,
          Prod.mk.injEq] at h
        obtain ⟨hx, hr⟩ := h
        obtain ⟨hd, _⟩ := upToLast_decomp ')' b3 p1 p2 h2
        constructor
        · rw [← hx, ← hr]
          have h3 : b1.takeWhile isDocClass ++ ('"' :: b3) = b1 := by
            rw [← hdrop]; exact List.takeWhile_append_dropWhile isDocClass b1
          calc '"' :: b1 = '"' :: (b1.takeWhile isDocClass ++ ('"' :: b3)) := by rw [h3]
            _ = '"' :: (b1.takeWhile isDocClass ++ ('"' :: (p1 ++ p2))) := by rw [← hd]
            _ = ('"' :: (b1.takeWhile isDocClass ++ '"' :: p1)) ++ p2 := by simp
        · rw [← hx]; simp
    next => exact Option.noConfusion h
  next => exact Option.noConfusion h

theorem pdScan_decomp (line x r : List Char) (h : pdScan line = some (x, r)) :
    line = x ++ r ∧ x ≠ [] := by
  unfold pdScan at h
  obtain ⟨i, _, hfi⟩ := findSomeEx h
  cases h2 : pdTail (line.drop i) with
  | none => rw [h2] at hfi; exact Option.noConfusion hfi
  | some p =>
    obtain ⟨p1, p2⟩ := p
    rw [h2] at hfi
    simp only [Option.map_some, Option.map_some', Option.some.injEq, Prod.mk.injEq] at hfi
    obtain ⟨hx, hr⟩ := hfi
    obtain ⟨hd, hne⟩ := pdTail_decomp (line.drop i) p1 p2 h2
    constructor
    · rw [← hx, ← hr]
      calc line = line.take i ++ line.drop i := by rw [List.take_append_drop]
        _ = line.take i ++ (p1 ++ p2) := by rw [← hd]
        _ = line.take i ++ p1 ++ p2 := by rw [List.append_assoc]
    · rw [← hx]
      intro hcon
      rcases List.append_eq_nil.mp hcon with ⟨_, hp1⟩
      exact hne hp1

theorem matchParenDoc_rok (s : List Char) : ROk s (matchParenDoc s) := by
  intro spans r h
  unfold matchParenDoc at h
  split at h
  next t =>
    split at h
    next p hscan =>
      obtain ⟨p1, p2⟩ := p
      simp only [Option.some.injEq, Prod.mk.injEq] at h
      obtain ⟨hs, hr⟩ := h
      obtain ⟨hd, hne⟩ := pdScan_decomp (t.takeWhile notLF) p1 p2 hscan
      refine ⟨?_, ?_, ?_⟩
      · rw [← hs, flat_single, ← hr]
        have : t = p1 ++ p2 ++ t.dropWhile notLF := by
          rw [← hd, List.takeWhile_append_dropWhile]
        calc '(' :: t = '(' :: (p1 ++ p2 ++ t.dropWhile notLF) := by rw [← this]
          _ = ('(' :: p1) ++ (p2 ++ t.dropWhile notLF) := by simp
      · rw [← hs, flat_single]; simp
      · intro q2 hq; rw [← hs] at hq; simp at hq; rw [hq]; simp
    next => exact Option.noConfusion h
  next => exact Option.noConfusion h

theorem matchHashbang_rok (pos : Nat) (s : List Char) : ROk s (matchHashbang pos s) := by
  intro spans r h
  unfold matchHashbang at h
  split at h
  next t heq =>
    split at h
    · split at h
      · exact Option.noConfusion h
      next c w htake =>
        simp only [Option.some.injEq, Prod.mk.injEq] at h
        obtain ⟨hs, hr⟩ := h
        have hlit := lit_eq _ s t heq
        refine ⟨?_, ?_, ?_⟩
        · rw [← hs, flat_single, ← hr, hlit]
          have h4 : t = (c :: w) ++ t.dropWhile notLF := by
            rw [← htake, List.takeWhile_append_dropWhile]
          conv_lhs => rw [h4]
          simp
        · rw [← hs, flat_single]; simp
        · intro q2 hq; rw [← hs] at hq; simp at hq; rw [hq]; simp
    · exact Option.noConfusion h
  next => exact Option.noConfusion h

theorem KEYWORDS_ne : ∀ w ∈ KEYWORDS, w ≠ ([] : List Char) := by decide

theorem SPECIAL_NAMES_ne : ∀ w ∈ SPECIAL_NAMES, w ≠ ([] : List Char) := by decide

theorem COMMON_ATTRIBUTES_ne : ∀ w ∈ COMMON_ATTRIBUTES, w ≠ ([] : List Char) := by decide

theorem OPERATORS_ne : ∀ w ∈ OPERATORS, w ≠ ([] : List Char) := by decide

/-- Soundness of the whole rule table: a successful match at a position
consumes exactly the concatenation of its non-empty sub-spans, and at
least one character. -/
theorem tryRules_ok (pos : Nat) (prev : Option Char) (s : List Char) :
    ROk s (tryRules pos prev s) := by
  unfold tryRules
  refine rElse_ok (rok_of_dec_pos matchCustomUniform_dec matchCustomUniform_pos s) ?_
  refine rElse_ok (rok_of_dec_pos matchCustom_dec matchCustom_pos s) ?_
  refine rElse_ok (rok_of_dec_pos matchUniform_dec matchUniform_pos s) ?_
  refine rElse_ok (rok_of_dec_pos matchBareType_dec matchBareType_pos s) ?_
  refine rElse_ok (wordsMatch_rok KEYWORDS_ne Tok.KeywordTokens prev s) ?_
  refine rElse_ok (wordsMatch_rok SPECIAL_NAMES_ne Tok.NameBuiltins prev s) ?_
  refine rElse_ok (wordsMatch_rok COMMON_ATTRIBUTES_ne Tok.NameAttribute prev s) ?_
  refine rElse_ok (matchNsAttr_rok prev s) ?_
  refine rElse_ok (wordsMatch_rok OPERATORS_ne Tok.Operator prev s) ?_
  refine rElse_ok (typesArrayMatch_rok s) ?_
  refine rElse_ok (wordsMatch_rok (by decide) Tok.KeywordType prev s) ?_
  refine rElse_ok (pClass_rok isPunctChar Tok.Punctuation s) ?_
  refine rElse_ok (matchComment_rok s) ?_
  refine rElse_ok (pChar_rok ',' Tok.Generic s) ?_
  refine rElse_ok (pChar_rok ';' Tok.Generic s) ?_
  refine rElse_ok (pChar_rok '=' Tok.Operator s) ?_
  refine rElse_ok (matchNumber_rok s) ?_
  refine rElse_ok (matchTriple_rok SQ s) ?_
  refine rElse_ok (matchTriple_rok '"' s) ?_
  refine rElse_ok (matchLineString_rok SQ Tok.Str s) ?_
  refine rElse_ok (matchLineString_rok '"' Tok.Str s) ?_
  refine rElse_ok (matchNamespace_rok s) ?_
  refine rElse_ok (matchLineString_rok '@' Tok.StringInterpol s) ?_
  refine rElse_ok (matchParenDoc_rok s) ?_
  refine rElse_ok (matchHashbang_rok pos s) ?_
  refine rElse_ok (rok_of_dec_pos (pTak1_dec isSpaceCh Tok.Text) (pTak1_pos isSpaceCh Tok.Text) s) ?_
  exact rok_of_dec_pos (pTak1_dec isGenChar Tok.Generic) (pTak1_pos isGenChar Tok.Generic) s

/-- Every successful rule application strictly shrinks the remaining
input: the cursor advances by at least one character. -/
theorem tryRules_shrinks (pos : Nat) (prev : Option Char) (s : List Char)
    (spans : List Span) (r : List Char) (h : tryRules pos prev s = some (spans, r)) :
    r.length < s.length := by
  obtain ⟨hd, hne, _⟩ := tryRules_ok pos prev s spans r h
  rw [hd, List.length_append]
  have hpos : 0 < (flat spans).length := List.length_pos.mpr hne
  omega

/-- The concatenated text of a list of emitted spans. -/
def flatten (l : List (Nat × Tok × List Char)) : List Char :=
  (l.map fun q => q.2.2).flatten

/-- The spans are laid out contiguously starting at offset `p`: each
span starts where the previous one ended, every span is non-empty (so
start offsets strictly increase), with no gaps and no overlaps. -/
def Contiguous : Nat → List (Nat × Tok × List Char) → Prop
  | _, [] => True
  | p, (st, _, txt) :: rest => st = p ∧ txt ≠ [] ∧ Contiguous (p + txt.length) rest

theorem flat_cons (q : Span) (rest : List Span) : flat (q :: rest) = q.2 ++ flat rest := by
  simp [flat]

theorem flatten_cons (q : Nat × Tok × List Char) (rest : List (Nat × Tok × List Char)) :
    flatten (q :: rest) = q.2.2 ++ flatten rest := by
  simp [flatten]

theorem flatten_withPos_append (l : List Span) :
    ∀ (p : Nat) (more : List (Nat × Tok × List Char)),
    flatten (withPos p l ++ more) = flat l ++ flatten more := by
  induction l with
  | nil => intro p more; simp [withPos, flat]
  | cons q rest ih =>
    intro p more
    obtain ⟨tk, txt⟩ := q
    simp only [withPos, List.cons_append, flatten_cons, ih, flat_cons]
    simp [List.append_assoc]

theorem contig_withPos_append (l : List Span) :
    ∀ (p : Nat) (more : List (Nat × Tok × List Char)),
    (∀ q ∈ l, q.2 ≠ ([] : List Char)) →
    Contiguous (p + (flat l).length) more →
    Contiguous p (withPos p l ++ more) := by
  induction l with
  | nil =>
    intro p more _ hc
    simpa [withPos, flat] using hc
  | cons q rest ih =>
    intro p more hn hc
    obtain ⟨tk, txt⟩ := q
    simp only [withPos, List.cons_append]
    refine ⟨rfl, hn (tk, txt) (by simp), ?_⟩
    apply ih (p + txt.length) more (fun q hq => hn q (List.mem_cons_of_mem _ hq))
    have : p + txt.length + (flat rest).length = p + (flat ((tk, txt) :: rest)).length := by
      rw [flat_cons]
      dsimp only
      rw [List.length_append]
      omega
    rw [this]
    exact hc

/-- Coverage of the engine: with enough fuel, the emitted spans
concatenate to the remaining input and are laid out contiguously from
the current offset. -/
theorem lexAux_cover : ∀ (fuel pos : Nat) (prev : Option Char) (s : List Char),
    s.length ≤ fuel →
    flatten (lexAux fuel pos prev s) = s ∧ Contiguous pos (lexAux fuel pos prev s) := by
  intro fuel
  induction fuel with
  | zero =>
    intro pos prev s hf
    have h0 : s = [] := List.eq_nil_of_length_eq_zero (Nat.le_zero.mp hf)
    subst h0
    simp [lexAux, flatten, Contiguous]
  | succ n ih =>
    intro pos prev s hf
    cases s with
    | nil => simp [lexAux, flatten, Contiguous]
    | cons c t =>
      cases htr : tryRules pos prev (c :: t) with
      | some pr =>
        obtain ⟨spans, r⟩ := pr
        obtain ⟨hd, hne, hqn⟩ := tryRules_ok pos prev (c :: t) spans r htr
        have heq : lexAux (n + 1) pos prev (c :: t) =
            withPos pos spans ++
              lexAux n (pos + (flat spans).length) (flat spans).getLast? r := by
          simp only [lexAux]
          rw [htr]
        have hrlen : r.length ≤ n := by
          have hlen := congrArg List.length hd
          simp only [List.length_append, List.length_cons] at hlen hf
          have hpos : 0 < (flat spans).length := List.length_pos.mpr hne
          omega
        obtain ⟨ih1, ih2⟩ := ih (pos + (flat spans).length) (flat spans).getLast? r hrlen
        rw [heq]
        constructor
        · rw [flatten_withPos_append, ih1, ← hd]
        · exact contig_withPos_append spans pos _ hqn ih2
      | none =>
        have heq : lexAux (n + 1) pos prev (c :: t) =
            (pos, if c = '\n' then Tok.Text else Tok.Error, [c]) ::
              lexAux n (pos + 1) (some c) t := by
          simp only [lexAux]
          rw [htr]
        have htlen : t.length ≤ n := by
          simp only [List.length_cons] at hf
          omega
        obtain ⟨ih1, ih2⟩ := ih (pos + 1) (some c) t htlen
        rw [heq]
        constructor
        · rw [flatten_cons, ih1]; rfl
        · exact ⟨rfl, by simp, by simpa using ih2⟩

/-- The number of rule-application steps the engine performs (matches
and single-character fallbacks both count as one step). -/
def lexSteps : Nat → Nat → Option Char → List Char → Nat
  | _, _, _, [] => 0
  | 0, _, _, _ :: _ => 0
  | fuel + 1, pos, prev, c :: t =>
    match tryRules pos prev (c :: t) with
    | some (spans, r) => lexSteps fuel (pos + (flat spans).length) (flat spans).getLast? r + 1
    | none => lexSteps fuel (pos + 1) (some c) t + 1

theorem lexSteps_le : ∀ (fuel pos : Nat) (prev : Option Char) (s : List Char),
    s.length ≤ fuel → lexSteps fuel pos prev s ≤ s.length := by
  intro fuel
  induction fuel with
  | zero =>
    intro pos prev s hf
    have h0 : s = [] := List.eq_nil_of_length_eq_zero (Nat.le_zero.mp hf)
    subst h0
    simp [lexSteps]
  | succ n ih =>
    intro pos prev s hf
    cases s with
    | nil => simp [lexSteps]
    | cons c t =>
      cases htr : tryRules pos prev (c :: t) with
      | some pr =>
        obtain ⟨spans, r⟩ := pr
        obtain ⟨hd, hne, _⟩ := tryRules_ok pos prev (c :: t) spans r htr
        have heq : lexSteps (n + 1) pos prev (c :: t) =
            lexSteps n (pos + (flat spans).length) (flat spans).getLast? r + 1 := by
          simp only [lexSteps]
          rw [htr]
        have hlen := congrArg List.length hd
        simp only [List.length_append, List.length_cons] at hlen hf
        have hpos : 0 < (flat spans).length := List.length_pos.mpr hne
        have hrlen : r.length ≤ n := by omega
        have := ih (pos + (flat spans).length) (flat spans).getLast? r hrlen
        rw [heq]
        simp only [List.length_cons]
        omega
      | none =>
        have heq : lexSteps (n + 1) pos prev (c :: t) =
            lexSteps n (pos + 1) (some c) t + 1 := by
          simp only [lexSteps]
          rw [htr]
        have htlen : t.length ≤ n := by
          simp only [List.length_cons] at hf
          omega
        have := ih (pos + 1) (some c) t htlen
        rw [heq]
        simp only [List.length_cons]
        omega

/-- The number of engine steps used to lex a whole buffer. -/
def lexStepCount (s : List Char) : Nat := lexSteps s.length 0 none s

theorem contig_le (l : List (Nat × Tok × List Char)) :
    ∀ p, Contiguous p l → ∀ q ∈ l, p ≤ q.1 := by
  induction l with
  | nil => intro p _ q hq; simp at hq
  | cons a rest ih =>
    intro p hc q hq
    obtain ⟨st, tk, txt⟩ := a
    obtain ⟨h1, h2, h3⟩ := hc
    rcases List.mem_cons.mp hq with rfl | hq2
    · exact Nat.le_of_eq h1.symm
    · have := ih (p + txt.length) h3 q hq2
      omega

theorem contig_pairwise (l : List (Nat × Tok × List Char)) :
    ∀ p, Contiguous p l → l.Pairwise (fun a b => a.1 < b.1) := by
  induction l with
  | nil => intro p _; exact List.Pairwise.nil
  | cons a rest ih =>
    intro p hc
    obtain ⟨st, tk, txt⟩ := a
    obtain ⟨h1, h2, h3⟩ := hc
    refine List.Pairwise.cons ?_ (ih (p + txt.length) h3)
    intro b hb
    have hle := contig_le rest (p + txt.length) h3 b hb
    have hpos : 0 < txt.length := List.length_pos.mpr h2
    simp only
    omega

/-- C1: for every input buffer, the emitted span sequence covers the
buffer exactly: concatenating the texts of all emitted spans in order
reproduces the buffer character for character, the spans are laid out
contiguously from offset zero with no gaps, no overlaps, and no empty
spans (`Contiguous`), and their start offsets strictly increase. -/
theorem c1_total_coverage (s : List Char) :
    flatten (lex s) = s ∧ Contiguous 0 (lex s) ∧
      (lex s).Pairwise (fun a b => a.1 < b.1) := by
  obtain ⟨h1, h2⟩ := lexAux_cover s.length 0 none s Nat.le.refl
  exact ⟨h1, h2, contig_pairwise _ 0 h2⟩

/-- Witness for C1 at the concrete buffer `a;`. -/
theorem c1_total_coverage_w :
    flatten (lex ( "a;".data)) = "a;".data ∧ Contiguous 0 (lex ( "a;".data)) ∧
      (lex ( "a;".data)).Pairwise (fun a b => a.1 < b.1) :=
  c1_total_coverage ( "a;".data)

/-- C2: lexing any buffer takes at most one rule-application step per
character of the buffer; every successful rule application consumes at
least one character (so the cursor strictly advances); the engine is a
total function (it can raise no error by construction, the fallback
branch of `lexAux` absorbing every unmatched character); and the empty
buffer yields the empty span sequence. -/
theorem c2_termination_total :
    (∀ s : List Char, lexStepCount s ≤ s.length) ∧
    (∀ (pos : Nat) (prev : Option Char) (s : List Char) (spans : List Span) (r : List Char),
      tryRules pos prev s = some (spans, r) → r.length + 1 ≤ s.length) ∧
    lex [] = [] := by
  refine ⟨fun s => lexSteps_le s.length 0 none s Nat.le.refl, ?_, rfl⟩
  intro pos prev s spans r h
  exact tryRules_shrinks pos prev s spans r h

/-- Witness for C2: the single-character buffer consisting of an equals
sign is lexed in one step consuming one character. -/
theorem c2_termination_total_w :
    lexStepCount ( "=".data) ≤ ( "=".data).length ∧
      (([] : List Char)).length + 1 ≤ ( "=".data).length ∧
      lex [] = [] :=
  ⟨c2_termination_total.1 ( "=".data),
   c2_termination_total.2.1 0 none ( "=".data) [(Tok.Operator, ['='])] [] rfl,
   c2_termination_total.2.2⟩

/-- C3: the line `custom double myAttr = 1.0` yields, in order, a
keyword span for `custom`, whitespace, a type span for `double`,
whitespace, an attribute-name span for `myAttr`, whitespace, an
operator span for `=`, whitespace (the engine-level whitespace rule,
category `Text`), and a number span for `1.0`. -/
theorem c3_composite_decl_line :
    lex ( "custom double myAttr = 1.0".data) =
      [(0, Tok.KeywordToken, "custom".data), (6, Tok.Whitespace, " ".data),
       (7, Tok.KeywordType, "double".data), (13, Tok.Whitespace, " ".data),
       (14, Tok.NameAttribute, "myAttr".data), (20, Tok.Whitespace, " ".data),
       (21, Tok.Operator, "=".data), (22, Tok.Text, " ".data),
       (23, Tok.Number, "1.0".data)] := rfl

/-- C4: the claim is wrong about the code.  The line-comment rule
`#.*?$` precedes the rule `\A#usda .+$` in the table, so the hashbang
rule can never fire: the text `#usda 1.0` is classified `Comment.Single`
even when it is the very first text of the buffer (first conjunct), as
well as mid-file (second conjunct).  The `\A` anchor of the shadowed
rule shows the intent that the spec describes. -/
theorem c4_hashbang_shadowed :
    lex ( "#usda 1.0".data) = [(0, Tok.CommentSingle, "#usda 1.0".data)] ∧
    lex ( "x\n#usda 1.0".data) =
      [(0, Tok.Generic, "x".data), (1, Tok.Text, "\n".data),
       (2, Tok.CommentSingle, "#usda 1.0".data)] ∧
    Tok.CommentSingle ≠ Tok.CommentHashbang :=
  ⟨rfl, rfl, by decide⟩

/-- C5: at every position whose current character is a semicolon, no
rule before the semicolon rule matches, and the rule table emits the
semicolon as a single span of category `Generic`; the engine therefore
emits `(pos, Generic, ";")` and advances by one.  `Generic` is not the
punctuation category. -/
theorem c5_semicolon_generic (pos : Nat) (prev : Option Char) (t : List Char) (fuel : Nat) :
    tryRules pos prev (';' :: t) = some ([(Tok.Generic, [';'])], t) ∧
    lexAux (fuel + 1) pos prev (';' :: t) =
      (pos, Tok.Generic, [';']) :: lexAux fuel (pos + 1) (some ';') t ∧
    Tok.Generic ≠ Tok.Punctuation :=
  ⟨rfl, rfl, by decide⟩

/-- Witness for C5 at position zero of the buffer `;`. -/
theorem c5_semicolon_generic_w :
    tryRules 0 none (';' :: []) = some ([(Tok.Generic, [';'])], []) ∧
    lexAux 1 0 none (';' :: []) =
      (0, Tok.Generic, [';']) :: lexAux 0 1 (some ';') [] ∧
    Tok.Generic ≠ Tok.Punctuation :=
  c5_semicolon_generic 0 none [] 0

/-- C6: the single-line quoted-string rule is greedy to the last quote
on the line: the buffer `"a" "b"` is lexed as one `String` span
covering everything from the first quote through the final quote. -/
theorem c6_greedy_single_line_string :
    lex ( "\"a\" \"b\"".data) = [(0, Tok.Str, "\"a\" \"b\"".data)] := rfl

/-- C7: the keyword word list matches whole words only: `timeSamples`
is a listed keyword, yet the keyword rule fails on every input starting
with the longer identifier `timeSamplesExtra` (whatever follows),
because the trailing word boundary fails inside the identifier; the
buffer `timeSamplesExtra` falls through to the generic category. -/
theorem c7_whole_word_keywords :
    (∀ (prev : Option Char) (t : List Char),
      wordsMatch KEYWORDS Tok.KeywordTokens prev ( "timeSamplesExtra".data ++ t) = none) ∧
    ( "timeSamples".data ∈ KEYWORDS) ∧
    lex ( "timeSamplesExtra".data) = [(0, Tok.Generic, "timeSamplesExtra".data)] :=
  ⟨fun _ _ => rfl, by decide, rfl⟩

/-- Witness for C7 with an empty continuation after the identifier. -/
theorem c7_whole_word_keywords_w :
    wordsMatch KEYWORDS Tok.KeywordTokens none ( "timeSamplesExtra".data ++ []) = none :=
  c7_whole_word_keywords.1 none []

/-- C8: the namespaced identifier `primvars:displayColor` is emitted as
a single attribute-name span covering the whole identifier including
the colon. -/
theorem c8_namespaced_attr_single_span :
    lex ( "primvars:displayColor".data) =
      [(0, Tok.NameAttribute, "primvars:displayColor".data)] := rfl

/-- C9 counterexample: in the `custom uniform` composite rule the
separator after `uniform` is `(\s+)`, which accepts a newline, so on
`custom uniform\nint a =` a composite rule does match even though the
separator after `uniform` contains a newline — contradicting the claim
that no composite rule matches then.  The whole-buffer lexing shows the
composite classification (note the attribute span for `a`, which the
later single-word rules would classify as `Generic`). -/
theorem c9_newline_separator_cex :
    matchCustomUniform ( "custom uniform\nint a =".data) =
      some ([(Tok.KeywordToken, "custom".data), (Tok.Whitespace, " ".data),
        (Tok.KeywordToken, "uniform".data), (Tok.Whitespace, "\n".data),
        (Tok.KeywordType, "int".data), (Tok.Whitespace, " ".data),
        (Tok.NameAttribute, "a".data), (Tok.Whitespace, " ".data),
        (Tok.Operator, "=".data)], []) ∧
    lex ( "custom uniform\nint a =".data) =
      [(0, Tok.KeywordToken, "custom".data), (6, Tok.Whitespace, " ".data),
       (7, Tok.KeywordToken, "uniform".data), (14, Tok.Whitespace, "\n".data),
       (15, Tok.KeywordType, "int".data), (18, Tok.Whitespace, " ".data),
       (19, Tok.NameAttribute, "a".data), (20, Tok.Whitespace, " ".data),
       (21, Tok.Operator, "=".data)] :=
  ⟨rfl, rfl⟩

/-- C9 amended: the separators written as `[ \t]+` in the source —
after `custom` in the two custom-led composite rules, after `uniform`
in the uniform-led rule, and between the type word and the attribute
name in the bare-type rule — accept only space and tab, so a newline
there makes that rule fail, and the words are then classified by the
later single-word rules (final conjunct); only the separator after
`uniform` in the `custom uniform` rule is general whitespace and may
contain a newline. -/
theorem c9_newline_separator_amended :
    (∀ rest : List Char, matchCustomUniform ( "custom\n".data ++ rest) = none) ∧
    (∀ rest : List Char, matchCustom ( "custom\n".data ++ rest) = none) ∧
    (∀ rest : List Char, matchUniform ( "uniform\n".data ++ rest) = none) ∧
    (∀ rest : List Char, matchBareType ( "int\n".data ++ rest) = none) ∧
    lex ( "custom\nint a =".data) =
      [(0, Tok.KeywordTokens, "custom".data), (6, Tok.Text, "\n".data),
       (7, Tok.KeywordType, "int".data), (10, Tok.Whitespace, " ".data),
       (11, Tok.NameAttribute, "a".data), (12, Tok.Whitespace, " ".data),
       (13, Tok.Operator, "=".data)] :=
  ⟨fun _ => rfl, fun _ => rfl, fun _ => rfl, fun _ => rfl, rfl⟩

/-- Witness for the amended C9 with an empty continuation. -/
theorem c9_newline_separator_amended_w :
    matchCustomUniform ( "custom\n".data ++ []) = none ∧
    matchCustom ( "custom\n".data ++ []) = none ∧
    matchUniform ( "uniform\n".data ++ []) = none ∧
    matchBareType ( "int\n".data ++ []) = none :=
  ⟨c9_newline_separator_amended.1 [], c9_newline_separator_amended.2.1 [],
   c9_newline_separator_amended.2.2.1 [], c9_newline_separator_amended.2.2.2.1 []⟩

/-- C10: with the optional `.timeSamples` suffix present, the composite
rule emits the dot as its own `Generic` span and `timeSamples` as its
own `Name.Keyword.Tokens` span — categories distinct from the
attribute-name category; with the suffix absent, the two capture
groups emit no spans at all. -/
theorem c10_timesamples_spans :
    lex ( "custom double a.timeSamples =".data) =
      [(0, Tok.KeywordToken, "custom".data), (6, Tok.Whitespace, " ".data),
       (7, Tok.KeywordType, "double".data), (13, Tok.Whitespace, " ".data),
       (14, Tok.NameAttribute, "a".data), (15, Tok.Generic, ".".data),
       (16, Tok.NameKeywordTokens, "timeSamples".data), (27, Tok.Whitespace, " ".data),
       (28, Tok.Operator, "=".data)] ∧
    lex ( "custom double a =".data) =
      [(0, Tok.KeywordToken, "custom".data), (6, Tok.Whitespace, " ".data),
       (7, Tok.KeywordType, "double".data), (13, Tok.Whitespace, " ".data),
       (14, Tok.NameAttribute, "a".data), (15, Tok.Whitespace, " ".data),
       (16, Tok.Operator, "=".data)] ∧
    Tok.NameKeywordTokens ≠ Tok.NameAttribute ∧ Tok.Generic ≠ Tok.NameAttribute :=
  ⟨rfl, rfl, by decide, by decide⟩

end UsdLexer
